import Mathlib

/-!
Verification of the interval-algebra core of the goodtime Alfred workflow
(`app.py` and `app_adv.py`).

Timestamps are modelled as `Int` seconds (minutes work equally well for the
scenarios stated in minutes; the constant 86400 matters only where the source
mentions it).  The Python `Interval` class (app.py lines 40-65, app_adv.py
lines 41-66) becomes a two-field structure; `datetime` arithmetic becomes
`Int` arithmetic.  Python lists of intervals become `List Interval` with value
semantics; where the source mutates objects in place, a separate definition
tracks the values the caller's list holds after the call.  `list.sort` is a
stable comparison sort, so it is modelled by a stable insertion sort, which is
extensionally the same function.
-/

namespace GoodTime

/-- The `Interval` value type of app.py lines 40-65: a pair of timestamps. -/
structure Interval where
  start : Int
  stop : Int
deriving DecidableEq, Repr

/-- The total order used by `intervals.sort()`: Python sorts with
`Interval.__lt__` (app.py lines 53-56), which orders by `start` and breaks
ties by `stop`.  `lexLe a b` is the resulting reflexive order. -/
def lexLe (a b : Interval) : Bool :=
  decide (a.start < b.start) || (decide (a.start = b.start) && decide (a.stop ≤ b.stop))

/-- The order used by `temp_intervals.sort(key=lambda interval: interval.start)`
in `merge_intervals` (app_adv.py line 272): by `start` only. -/
def startLe (a b : Interval) : Bool :=
  decide (a.start ≤ b.start)

/-- Stable insertion step: a later element `x` is placed after every existing
element `y` with `le y x`, so equal elements keep their input order, exactly
as Python's stable `list.sort` does.  Generic in the element type, because
the source sorts both plain interval lists and, in the mutation-tracking
model below, lists of identity-tagged intervals. -/
def insertSorted {A : Type} (le : A → A → Bool) (x : A) : List A → List A
  | [] => [x]
  | y :: ys => if le y x then y :: insertSorted le x ys else x :: y :: ys

/-- Model of Python's stable `list.sort` under the reflexive order `le`. -/
def stableSort {A : Type} (le : A → A → Bool) (l : List A) : List A :=
  l.foldl (fun acc x => insertSorted le x acc) []

/-- The in-place clipping applied to each retained interval inside
`sort_and_normalize` (app.py lines 213-216): raise `start` to the lower bound,
then lower `stop` to the upper bound when the (already clipped) `start` is
inside the scope and `stop` is past it. -/
def clip (lb ub : Int) (i : Interval) : Interval :=
  let s := if i.start < lb then lb else i.start
  let t := if s < ub ∧ i.stop > ub then ub else i.stop
  ⟨s, t⟩

/-- The merge sweep of `sort_and_normalize` (app.py lines 219-232): keep a
running interval `x`; an overlapping `y` (strict `y.start < x.stop`) extends
`x.stop` when it reaches further, otherwise `x` is closed and a new run starts
at `y`. -/
def mergeRuns : Interval → List Interval → List Interval
  | x, [] => [x]
  | x, y :: ys =>
    if y.start < x.stop then
      mergeRuns (if y.stop > x.stop then ⟨x.start, y.stop⟩ else x) ys
    else
      x :: mergeRuns y ys

/-- Model of `sort_and_normalize(intervals, given_start_dt, next_day)`
(app.py lines 206-233, identical in app_adv.py lines 195-222): sort, drop
intervals with `stop < given_start_dt`, clip the rest, then merge with the
strict rule.  The source reads `clean_intervals[0]` with no emptiness guard,
so an input which is empty after the drop step raises `IndexError`; that
uncaught fault is modelled as `none`. -/
def sort_and_normalize (intervals : List Interval) (given_start_dt next_day : Int) :
    Option (List Interval) :=
  let sorted := stableSort lexLe intervals
  let clean := (sorted.filter (fun i => !decide (i.stop < given_start_dt))).map
      (clip given_start_dt next_day)
  match clean with
  | [] => none
  | x :: ys => some (mergeRuns x ys)

/-- The gap walk of `find_free_time` (app.py lines 255-260): a cursor starts
at `given`; each busy interval whose start is ahead of the cursor emits a free
interval, where "ahead" is tested by `delta.seconds > 0` on the Python
`timedelta`, i.e. the euclidean remainder of the difference modulo 86400
seconds; then the cursor jumps to the busy interval's stop.  The walk breaks
once the cursor reaches `next_day`. -/
def freeWalk (next_day : Int) : Int → List Interval → List Interval
  | _, [] => []
  | cursor, i :: rest =>
    if cursor ≥ next_day then []
    else if (i.start - cursor).emod 86400 > 0 then
      ⟨cursor, i.start⟩ :: freeWalk next_day i.stop rest
    else
      freeWalk next_day i.stop rest

/-- Model of `find_free_time(day, given)` (app.py lines 236-263, identical in
app_adv.py lines 225-252).  The five busy categories are passed in the order
the source reads them: Rahu, Yamaganda, Gulika, Dur Muhurat, Varjyam.  The
synthetic boundary marker `Interval(next_day - 1 second, next_day)` is
appended first (line 247); the deep copies of the category lists become plain
values here.  The fault of `sort_and_normalize` on an empty cleaned list is
propagated (it cannot fire: the marker always survives the drop step). -/
def find_free_time (rahu yamaganda gulika dur varjyam : List Interval)
    (given : Int) : Option (List Interval) :=
  let next_day := given + 86400
  let merged := Interval.mk (next_day - 1) next_day ::
      (rahu ++ yamaganda ++ gulika ++ dur ++ varjyam)
  (sort_and_normalize merged given next_day).map
    (fun m => stableSort lexLe (freeWalk next_day given m))

/-- The fold of `merge_intervals` (app_adv.py lines 273-281): the last merged
entry absorbs the next interval under the non-strict rule
`current.start <= last.stop`, extending its stop to the maximum. -/
def mergeLoop : Interval → List Interval → List Interval
  | last, [] => [last]
  | last, current :: rest =>
    if current.start ≤ last.stop then
      mergeLoop ⟨last.start, max last.stop current.stop⟩ rest
    else
      last :: mergeLoop current rest

/-- Model of `merge_intervals(temp_intervals)` (app_adv.py lines 269-281):
empty input is explicitly guarded to `[]`; otherwise sort by `start` and fold
with the non-strict overlap rule. -/
def merge_intervals (temp_intervals : List Interval) : List Interval :=
  match stableSort startLe temp_intervals with
  | [] => []
  | x :: rest => mergeLoop x rest

/-- Model of `subtract_intervals(interval, removal)` (app_adv.py lines
283-301): disjoint removals return the original; otherwise a left and a right
remainder are produced; the final list comprehension keeps only pieces with
`start < stop`. -/
def subtract_intervals (interval removal : Interval) : List Interval :=
  (if removal.stop ≤ interval.start ∨ removal.start ≥ interval.stop then
      [interval]
    else
      (if removal.start > interval.start then
          [Interval.mk interval.start (min removal.start interval.stop)]
        else []) ++
      (if removal.stop < interval.stop then
          [Interval.mk (max removal.stop interval.start) interval.stop]
        else [])).filter (fun r => decide (r.start < r.stop))

/-- The inner loop of `subtract_many_intervals` (app_adv.py lines 306-314):
fold one interval's remainder list through every removal, short-circuiting to
`[]` as soon as nothing is left. -/
def subtract_many_aux (temp : List Interval) : List Interval → List Interval
  | [] => temp
  | removal :: rest =>
    let newTemp := temp.flatMap (fun entry => subtract_intervals entry removal)
    if newTemp.isEmpty then [] else subtract_many_aux newTemp rest

/-- Model of `subtract_many_intervals(available, not_available)` (app_adv.py
lines 303-316). -/
def subtract_many_intervals (available not_available : List Interval) : List Interval :=
  available.flatMap (fun interval => subtract_many_aux [interval] not_available)

/-- Model of `merge_subtract_intervals(intervals)` (app_adv.py lines 264-332):
the favorable categories (Free, Amrit Kaal, Abhijit Muhurat, Yamaganda,
Gulika) are concatenated and merged, the unfavorable ones (Rahu, Dur Muhurat,
Varjyam) likewise, and the merged unfavorable set is subtracted from the
merged favorable set. -/
def merge_subtract_intervals (free amritKaal abhijit yamaganda gulika
    rahu dur varjyam : List Interval) : List Interval :=
  let available := free ++ amritKaal ++ abhijit ++ yamaganda ++ gulika
  let not_available := rahu ++ dur ++ varjyam
  subtract_many_intervals (merge_intervals available) (merge_intervals not_available)

/-!
Mutation tracking.  `sort_and_normalize` works in place: `intervals.sort()`
reorders the caller's list, the clip assignments (app.py lines 214, 216)
overwrite fields of the caller's objects, and the merge extension
`x.stop = y.stop` (line 224) overwrites the run head, which is an object of
the caller's list.  `find_free_time` deep-copies precisely because of this
(app.py lines 250-251).  The definitions below compute the interval values
the caller's list holds after each call returns.
-/

/-- A raw endpoint token, modelled by its parse outcome. -/
inductive Tok where
  | parsed (t : Int) : Tok
  | unparseable : Tok
deriving DecidableEq, Repr

/-- Model of `try_strptime(s, given)` (app.py lines 70-85): returns the
parsed timestamp when one of the known formats matches the token, and `None`
otherwise. -/
def try_strptime : Tok → Option Int
  | .parsed t => some t
  | .unparseable => none

/-- Python 2 `<` on two `try_strptime` results: both datetimes compare by
value; a datetime against `None` raises `TypeError` in either direction;
`None < None` is `False`. -/
def py2LtOpt : Option Int → Option Int → Except Unit Bool
  | some a, some b => .ok (decide (a < b))
  | none, none => .ok false
  | _, _ => .error ()

/-- An interval as `build_intervals` actually constructs it: `Interval(x, y)`
is created from the raw `try_strptime` results, so an endpoint can be
`None`. -/
structure PInterval where
  start : Option Int
  stop : Option Int
deriving DecidableEq, Repr

/-- Python 2 `Interval.__lt__` (app.py lines 53-56) on such intervals:
`==` on the starts never raises (`None == datetime` is `False`), but the
`<` comparisons go through `py2LtOpt`. -/
def py2IntervalLt (a b : PInterval) : Except Unit Bool :=
  if a.start = b.start then py2LtOpt a.stop b.stop else py2LtOpt a.start b.start

/-- Stable insertion using the possibly-raising Python 2 comparison. -/
def insertPy2 (x : PInterval) : List PInterval → Except Unit (List PInterval)
  | [] => .ok [x]
  | y :: ys => do
    let b ← py2IntervalLt x y
    if b then
      return x :: y :: ys
    else
      let r ← insertPy2 x ys
      return y :: r

/-- Model of `intervals.sort()` at app.py line 190 on the built intervals: a
stable sort whose comparisons may raise. -/
def sortPy2 (l : List PInterval) : Except Unit (List PInterval) :=
  l.foldlM (fun acc x => insertPy2 x acc) []

/-- The body of the window loop of `build_intervals` (app.py lines 172-188)
for one raw window: a split that does not give exactly two tokens is skipped
(`continue`); otherwise both tokens go through `try_strptime` and the
midnight heuristic `if y < x: y += timedelta(days=1)` runs on the raw
results, with Python 2 comparison semantics. -/
def build_window (tokens : List Tok) : Except Unit (Option PInterval) :=
  match tokens with
  | [x, y] => do
    let xv := try_strptime x
    let yv := try_strptime y
    let lt ← py2LtOpt yv xv
    let yv := if lt then yv.map (fun v => v + 86400) else yv
    return some ⟨xv, yv⟩
  | _ => .ok none

/-- The windows of one category folded through `build_window`; an exception
aborts the whole category (there is no handler in `build_intervals`). -/
def build_windows : List (List Tok) → Except Unit (List PInterval)
  | [] => .ok []
  | w :: ws => do
    let i ← build_window w
    let rest ← build_windows ws
    return (match i with
      | some iv => iv :: rest
      | none => rest)

/-- Model of one iteration of the `important_timings` loop of
`build_intervals` (app.py lines 166-191): build every window of the category,
then sort the resulting list in place. -/
def build_intervals_category (windows : List (List Tok)) :
    Except Unit (List PInterval) := do
  let l ← build_windows windows
  sortPy2 l

/-!
Decidable observations used by the claims.
-/

/-- Consecutive-pair check of a binary relation along a list. -/
def chainB (r : Interval → Interval → Bool) : List Interval → Bool
  | [] => true
  | [_] => true
  | x :: y :: rest => r x y && chainB r (y :: rest)

/-- The list is sorted ascending under the `Interval` ordering. -/
def sortedB (l : List Interval) : Bool :=
  chainB lexLe l

/-- Every consecutive pair satisfies `stop <= start` (pairwise
non-overlapping in the normalizer's sense). -/
def gapB (l : List Interval) : Bool :=
  chainB (fun p q => decide (p.stop ≤ q.start)) l

/-- Two half-open intervals share at least one point. -/
def overlapB (p r : Interval) : Bool :=
  decide (max p.start r.start < min p.stop r.stop)

/-- Every interval of the list lies inside `a` (endpoint containment). -/
def withinB (a : Interval) (l : List Interval) : Bool :=
  l.all (fun p => decide (a.start ≤ p.start) && decide (p.stop ≤ a.stop))

/-- No interval of the first list overlaps any interval of the second. -/
def noneOverlapB (res unavail : List Interval) : Bool :=
  res.all (fun p => unavail.all (fun r => !overlapB p r))

/-- The list is in merged form: sorted and pairwise non-overlapping. -/
def mergedB (l : List Interval) : Bool :=
  sortedB l && gapB l

/-!
Invariants used by the proofs.
-/

/-- An interval as it leaves the clipping loop of `sort_and_normalize`: both
endpoints are at or above the lower bound, and a start inside the scope forces
the stop to be inside as well. -/
def scopeOK (lb ub : Int) (a : Interval) : Prop :=
  lb ≤ a.start ∧ lb ≤ a.stop ∧ (a.start < ub → a.stop ≤ ub)

/-- The order the cleaned list still satisfies after clipping: starts are
nondecreasing, and the stop tie-break survives for pairs whose common start
was not produced by the lower clip. -/
def clipOrder (lb : Int) (a b : Interval) : Prop :=
  a.start ≤ b.start ∧ (lb < a.start → a.start = b.start → a.stop ≤ b.stop)

theorem lexLe_iff (a b : Interval) :
    lexLe a b = true ↔ a.start < b.start ∨ (a.start = b.start ∧ a.stop ≤ b.stop) := by
  simp [lexLe]

theorem lexLe_total (a b : Interval) : lexLe a b = true ∨ lexLe b a = true := by
  rw [lexLe_iff, lexLe_iff]
  omega

theorem lexLe_trans (a b c : Interval) (hab : lexLe a b = true)
    (hbc : lexLe b c = true) : lexLe a c = true := by
  rw [lexLe_iff] at *
  omega

theorem startLe_total (a b : Interval) : startLe a b = true ∨ startLe b a = true := by
  simp [startLe]
  omega

theorem startLe_trans (a b c : Interval) (hab : startLe a b = true)
    (hbc : startLe b c = true) : startLe a c = true := by
  simp [startLe] at *
  omega

/-!
Facts about the stable-sort model.
-/

theorem insertSorted_perm {A : Type} (le : A → A → Bool) (x : A) :
    ∀ l : List A, (insertSorted le x l).Perm (x :: l)
  | [] => List.Perm.refl _
  | y :: ys => by
    unfold insertSorted
    split
    · exact ((insertSorted_perm le x ys).cons y).trans (List.Perm.swap x y ys)
    · exact List.Perm.refl _

theorem stableSort_perm_aux {A : Type} (le : A → A → Bool) :
    ∀ (l acc : List A),
      (l.foldl (fun acc x => insertSorted le x acc) acc).Perm (acc ++ l)
  | [], acc => by simp
  | x :: xs, acc => by
    simp only [List.foldl_cons]
    refine (stableSort_perm_aux le xs (insertSorted le x acc)).trans ?_
    refine (((insertSorted_perm le x acc).append_right xs).trans ?_)
    exact List.perm_middle.symm

theorem stableSort_perm {A : Type} (le : A → A → Bool) (l : List A) :
    (stableSort le l).Perm l := by
  simpa using stableSort_perm_aux le l []

theorem mem_stableSort (le : Interval → Interval → Bool) (l : List Interval)
    (a : Interval) : a ∈ stableSort le l ↔ a ∈ l :=
  (stableSort_perm le l).mem_iff

theorem insertSorted_pairwise (le : Interval → Interval → Bool)
    (htot : ∀ a b, le a b = true ∨ le b a = true)
    (htrans : ∀ a b c, le a b = true → le b c = true → le a c = true)
    (x : Interval) :
    ∀ l : List Interval, l.Pairwise (fun a b => le a b = true) →
      (insertSorted le x l).Pairwise (fun a b => le a b = true)
  | [], _ => by simp [insertSorted]
  | y :: ys, h => by
    rcases List.pairwise_cons.mp h with ⟨hy, hys⟩
    unfold insertSorted
    split
    · rename_i hle
      refine List.pairwise_cons.mpr ⟨?_, insertSorted_pairwise le htot htrans x ys hys⟩
      intro z hz
      rcases List.mem_cons.mp ((insertSorted_perm le x ys).mem_iff.mp hz) with rfl | hz2
      · exact hle
      · exact hy z hz2
    · rename_i hle
      have hxy : le x y = true := (htot x y).resolve_right (fun h2 => hle h2)
      refine List.pairwise_cons.mpr ⟨?_, h⟩
      intro z hz
      rcases List.mem_cons.mp hz with rfl | hz
      · exact hxy
      · exact htrans x y z hxy (hy z hz)

theorem stableSort_pairwise_aux (le : Interval → Interval → Bool)
    (htot : ∀ a b, le a b = true ∨ le b a = true)
    (htrans : ∀ a b c, le a b = true → le b c = true → le a c = true) :
    ∀ (l acc : List Interval), acc.Pairwise (fun a b => le a b = true) →
      (l.foldl (fun acc x => insertSorted le x acc) acc).Pairwise
        (fun a b => le a b = true)
  | [], _, h => h
  | x :: xs, acc, h => by
    simp only [List.foldl_cons]
    exact stableSort_pairwise_aux le htot htrans xs _
      (insertSorted_pairwise le htot htrans x acc h)

theorem stableSort_pairwise (le : Interval → Interval → Bool)
    (htot : ∀ a b, le a b = true ∨ le b a = true)
    (htrans : ∀ a b c, le a b = true → le b c = true → le a c = true)
    (l : List Interval) :
    (stableSort le l).Pairwise (fun a b => le a b = true) :=
  stableSort_pairwise_aux le htot htrans l [] (List.Pairwise.nil)

theorem insertSorted_of_all_le (le : Interval → Interval → Bool) (x : Interval) :
    ∀ l : List Interval, (∀ y ∈ l, le y x = true) →
      insertSorted le x l = l ++ [x]
  | [], _ => rfl
  | y :: ys, h => by
    unfold insertSorted
    rw [if_pos (h y (by simp))]
    simp [insertSorted_of_all_le le x ys (fun z hz => h z (by simp [hz]))]

theorem stableSort_of_pairwise_aux (le : Interval → Interval → Bool) :
    ∀ (l acc : List Interval),
      (acc ++ l).Pairwise (fun a b => le a b = true) →
      l.foldl (fun acc x => insertSorted le x acc) acc = acc ++ l
  | [], acc, _ => by simp
  | x :: xs, acc, h => by
    have hcross := (List.pairwise_append.mp h).2.2
    have hins : insertSorted le x acc = acc ++ [x] :=
      insertSorted_of_all_le le x acc (fun y hy => hcross y hy x (by simp))
    simp only [List.foldl_cons, hins]
    have h2 : ((acc ++ [x]) ++ xs).Pairwise (fun a b => le a b = true) := by
      simpa [List.append_assoc] using h
    simpa [List.append_assoc] using stableSort_of_pairwise_aux le xs (acc ++ [x]) h2

theorem stableSort_of_pairwise (le : Interval → Interval → Bool)
    (l : List Interval) (h : l.Pairwise (fun a b => le a b = true)) :
    stableSort le l = l := by
  simpa using stableSort_of_pairwise_aux le l [] (by simpa using h)

/-- Mapping a function which fixes every member fixes the list. -/
theorem map_fix (f : Interval → Interval) :
    ∀ l : List Interval, (∀ a ∈ l, f a = a) → l.map f = l
  | [], _ => rfl
  | x :: xs, h => by
    simp only [List.map_cons, h x (by simp),
      map_fix f xs (fun a ha => h a (by simp [ha]))]

theorem chainB_of_chain (r : Interval → Interval → Bool) :
    ∀ l : List Interval, l.Chain' (fun a b => r a b = true) → chainB r l = true
  | [], _ => rfl
  | [_], _ => rfl
  | x :: y :: rest, h => by
    rcases List.chain'_cons.mp h with ⟨hxy, hrest⟩
    simp [chainB, hxy, chainB_of_chain r (y :: rest) hrest]

@[simp] theorem start_mk (s t : Int) : (Interval.mk s t).start = s := rfl

@[simp] theorem stop_mk (s t : Int) : (Interval.mk s t).stop = t := rfl

/-!
Facts about the strict merge sweep.
-/

/-- Extending a run head with an overlapping interval keeps the clip
invariant. -/
theorem scopeOK_extend (lb ub : Int) (x y : Interval) (hx : scopeOK lb ub x)
    (hy : scopeOK lb ub y) (hov : y.start < x.stop) :
    scopeOK lb ub (Interval.mk x.start y.stop) :=
  ⟨hx.1, hy.2.1, fun hlt => hy.2.2 (lt_of_lt_of_le hov (hx.2.2 hlt))⟩

/-- The first element of the merge sweep keeps the head's start and can only
have a later stop. -/
theorem mergeRuns_shape :
    ∀ (ys : List Interval) (x : Interval),
      ∃ t rest, mergeRuns x ys = Interval.mk x.start t :: rest ∧ x.stop ≤ t
  | [], x => ⟨x.stop, [], by cases x; rfl, le_refl _⟩
  | y :: ys, x => by
    unfold mergeRuns
    split
    · rename_i hov
      by_cases hext : y.stop > x.stop
      · rw [if_pos hext]
        obtain ⟨t, rest, heq, hle⟩ := mergeRuns_shape ys (Interval.mk x.start y.stop)
        exact ⟨t, rest, heq, le_trans (le_of_lt hext) hle⟩
      · rw [if_neg hext]
        exact mergeRuns_shape ys x
    · exact ⟨x.stop, mergeRuns y ys, by cases x; rfl, le_refl _⟩

/-- Every output interval of the merge sweep takes its start from some input
interval and reaches at least as far as that input's stop. -/
theorem mergeRuns_mem :
    ∀ (ys : List Interval) (x p : Interval), p ∈ mergeRuns x ys →
      ∃ z, z ∈ x :: ys ∧ p.start = z.start ∧ z.stop ≤ p.stop
  | [], x, p, hp => by
    simp only [mergeRuns, List.mem_singleton] at hp
    exact ⟨x, by simp, by simp [hp]⟩
  | y :: ys, x, p, hp => by
    unfold mergeRuns at hp
    split at hp
    · rename_i hov
      by_cases hext : y.stop > x.stop
      · rw [if_pos hext] at hp
        obtain ⟨z, hz, hs, ht⟩ := mergeRuns_mem ys (Interval.mk x.start y.stop) p hp
        rcases List.mem_cons.mp hz with rfl | hz2
        · exact ⟨x, by simp, hs, le_trans (le_of_lt hext) ht⟩
        · refine ⟨z, ?_, hs, ht⟩
          simp [hz2]
      · rw [if_neg hext] at hp
        obtain ⟨z, hz, hs, ht⟩ := mergeRuns_mem ys x p hp
        refine ⟨z, ?_, hs, ht⟩
        rcases List.mem_cons.mp hz with rfl | hz2
        · simp
        · simp [hz2]
    · rcases List.mem_cons.mp hp with rfl | hp2
      · exact ⟨p, by simp, rfl, le_refl _⟩
      · obtain ⟨z, hz, hs, ht⟩ := mergeRuns_mem ys y p hp2
        refine ⟨z, ?_, hs, ht⟩
        rcases List.mem_cons.mp hz with rfl | hz2
        · simp
        · simp [hz2]

/-- The merge sweep preserves the clip invariant. -/
theorem mergeRuns_scopeOK (lb ub : Int) :
    ∀ (ys : List Interval) (x : Interval),
      (∀ z ∈ x :: ys, scopeOK lb ub z) →
      ∀ p ∈ mergeRuns x ys, scopeOK lb ub p
  | [], x, h, p, hp => by
    simp only [mergeRuns, List.mem_singleton] at hp
    exact hp ▸ h x (by simp)
  | y :: ys, x, h, p, hp => by
    unfold mergeRuns at hp
    split at hp
    · rename_i hov
      by_cases hext : y.stop > x.stop
      · rw [if_pos hext] at hp
        refine mergeRuns_scopeOK lb ub ys (Interval.mk x.start y.stop) ?_ p hp
        intro z hz
        rcases List.mem_cons.mp hz with rfl | hz2
        · exact scopeOK_extend lb ub x y (h x (by simp)) (h y (by simp)) hov
        · exact h z (by simp [hz2])
      · rw [if_neg hext] at hp
        refine mergeRuns_scopeOK lb ub ys x ?_ p hp
        intro z hz
        rcases List.mem_cons.mp hz with rfl | hz2
        · exact h z (by simp)
        · exact h z (by simp [hz2])
    · rcases List.mem_cons.mp hp with rfl | hp2
      · exact h p (by simp)
      · refine mergeRuns_scopeOK lb ub ys y ?_ p hp2
        intro z hz
        rcases List.mem_cons.mp hz with rfl | hz2
        · exact h z (by simp)
        · exact h z (by simp [hz2])

/-- A list whose consecutive pairs already satisfy `stop <= start` passes
through the merge sweep unchanged. -/
theorem mergeRuns_of_gap :
    ∀ (ys : List Interval) (x : Interval),
      (x :: ys).Chain' (fun a b => a.stop ≤ b.start) →
      mergeRuns x ys = x :: ys
  | [], _, _ => rfl
  | y :: ys, x, h => by
    rcases List.chain'_cons.mp h with ⟨hxy, h2⟩
    unfold mergeRuns
    rw [if_neg (by omega)]
    rw [mergeRuns_of_gap ys y h2]

/-- Output of the merge sweep on a cleaned list: sorted under the `Interval`
ordering and with `stop <= start` between consecutive entries. -/
theorem mergeRuns_sorted_gap (lb ub : Int) :
    ∀ (ys : List Interval) (x : Interval),
      (x :: ys).Pairwise (clipOrder lb) →
      (∀ z ∈ x :: ys, scopeOK lb ub z) →
      (mergeRuns x ys).Pairwise (fun a b => lexLe a b = true) ∧
      (mergeRuns x ys).Chain' (fun a b => a.stop ≤ b.start)
  | [], x, _, _ => by simp [mergeRuns]
  | y :: ys, x, hpw, hsc => by
    rcases List.pairwise_cons.mp hpw with ⟨hxall, hpw2⟩
    rcases List.pairwise_cons.mp hpw2 with ⟨hyall, hpw3⟩
    unfold mergeRuns
    split
    · rename_i hov
      by_cases hext : y.stop > x.stop
      · rw [if_pos hext]
        refine mergeRuns_sorted_gap lb ub ys (Interval.mk x.start y.stop) ?_ ?_
        · refine List.pairwise_cons.mpr ⟨?_, hpw3⟩
          intro z hz
          have hxz := hxall z (by simp [hz])
          have hxy := hxall y (by simp)
          have hyz := hyall z hz
          refine ⟨hxz.1, ?_⟩
          intro hlb heq
          simp only [start_mk, stop_mk] at hlb heq ⊢
          have hxy1 := hxy.1
          have hyz1 := hyz.1
          have h1 : y.start = z.start := by omega
          exact hyz.2 (by omega) h1
        · intro z hz
          rcases List.mem_cons.mp hz with rfl | hz2
          · exact scopeOK_extend lb ub x y (hsc x (by simp)) (hsc y (by simp)) hov
          · exact hsc z (by simp [hz2])
      · rw [if_neg hext]
        refine mergeRuns_sorted_gap lb ub ys x ?_ ?_
        · refine List.pairwise_cons.mpr ⟨?_, hpw3⟩
          intro z hz
          exact hxall z (by simp [hz])
        · intro z hz
          rcases List.mem_cons.mp hz with rfl | hz2
          · exact hsc z (by simp)
          · exact hsc z (by simp [hz2])
    · rename_i hov
      have ih := mergeRuns_sorted_gap lb ub ys y hpw2 (fun z hz => hsc z (by simp [hz]))
      constructor
      · refine List.pairwise_cons.mpr ⟨?_, ih.1⟩
        intro p hp
        obtain ⟨z, hz, hs, ht⟩ := mergeRuns_mem ys y p hp
        have hxz : clipOrder lb x z := by
          rcases List.mem_cons.mp hz with rfl | hz2
          · exact hxall z (by simp)
          · exact hxall z (by simp [hz2])
        have hzsc : scopeOK lb ub z := by
          rcases List.mem_cons.mp hz with rfl | hz2
          · exact hsc z (by simp)
          · exact hsc z (by simp [hz2])
        have hxsc : scopeOK lb ub x := hsc x (by simp)
        have hyz1 : y.start ≤ z.start := by
          rcases List.mem_cons.mp hz with rfl | hz2
          · exact le_refl _
          · exact (hyall z hz2).1
        rw [lexLe_iff]
        obtain ⟨ho1, ho2⟩ := hxz
        obtain ⟨hb1, hb2, hb3⟩ := hzsc
        obtain ⟨ha1, ha2, ha3⟩ := hxsc
        by_cases htie : x.start = z.start
        · rcases em (lb < x.start) with hlb | hlb
          · have h2 := ho2 hlb htie
            omega
          · omega
        · omega
      · obtain ⟨t, rest, hshape, hle⟩ := mergeRuns_shape ys y
        rw [hshape]
        refine List.chain'_cons.mpr ⟨?_, ?_⟩
        · exact (by omega : x.stop ≤ y.start)
        · rw [← hshape]
          exact ih.2

/-!
Facts about the clipping step.
-/

theorem clip_clipOrder (lb ub : Int) (a b : Interval) (h : lexLe a b = true) :
    clipOrder lb (clip lb ub a) (clip lb ub b) := by
  rw [lexLe_iff] at h
  simp only [clip, clipOrder, start_mk, stop_mk]
  split_ifs <;> exact ⟨by omega, by omega⟩

theorem clip_scopeOK (lb ub : Int) (i : Interval) (h : ¬ i.stop < lb) :
    scopeOK lb ub (clip lb ub i) := by
  simp only [clip, scopeOK, start_mk, stop_mk]
  split_ifs <;> exact ⟨by omega, by omega, by omega⟩

theorem clip_fix (lb ub : Int) (p : Interval) (h : scopeOK lb ub p) :
    clip lb ub p = p := by
  obtain ⟨h1, h2, h3⟩ := h
  simp only [clip]
  rw [if_neg (by omega)]
  rw [if_neg (fun hcon => absurd (h3 hcon.1) (by omega))]

/-!
The assembled facts about `sort_and_normalize`.
-/

theorem sort_and_normalize_some (l : List Interval) (lb ub : Int)
    (out : List Interval) (h : sort_and_normalize l lb ub = some out) :
    out ≠ [] ∧
    out.Pairwise (fun a b => lexLe a b = true) ∧
    out.Chain' (fun a b => a.stop ≤ b.start) ∧
    (∀ p ∈ out, scopeOK lb ub p) := by
  simp only [sort_and_normalize] at h
  revert h
  cases hc : ((stableSort lexLe l).filter fun i => !decide (i.stop < lb)).map
      (clip lb ub) with
  | nil => intro h; exact Option.noConfusion h
  | cons x ys =>
    intro h
    have hout : out = mergeRuns x ys := (Option.some_inj.mp h).symm
    have hpw0 : (x :: ys).Pairwise (clipOrder lb) := by
      rw [← hc]
      refine List.pairwise_map.mpr ?_
      exact ((stableSort_pairwise lexLe lexLe_total lexLe_trans l).filter _).imp
        (fun hab => clip_clipOrder lb ub _ _ hab)
    have hsc0 : ∀ z ∈ x :: ys, scopeOK lb ub z := by
      intro z hz
      rw [← hc] at hz
      obtain ⟨w, hw, rfl⟩ := List.mem_map.mp hz
      exact clip_scopeOK lb ub w (by simpa using (List.mem_filter.mp hw).2)
    obtain ⟨hpw, hch⟩ := mergeRuns_sorted_gap lb ub ys x hpw0 hsc0
    obtain ⟨t, rest, hshape, _⟩ := mergeRuns_shape ys x
    refine ⟨?_, hout ▸ hpw, hout ▸ hch, ?_⟩
    · rw [hout, hshape]
      simp
    · intro p hp
      exact mergeRuns_scopeOK lb ub ys x hsc0 p (hout ▸ hp)

theorem sort_and_normalize_idem (l : List Interval) (lb ub : Int)
    (out : List Interval) (h : sort_and_normalize l lb ub = some out) :
    sort_and_normalize out lb ub = some out := by
  obtain ⟨hne, hpw, hch, hsc⟩ := sort_and_normalize_some l lb ub out h
  simp only [sort_and_normalize]
  have hs : stableSort lexLe out = out := stableSort_of_pairwise lexLe out hpw
  have hf : out.filter (fun i => !decide (i.stop < lb)) = out := by
    refine List.filter_eq_self.mpr ?_
    intro a ha
    have := (hsc a ha).2.1
    simp only [Bool.not_eq_true', decide_eq_false_iff_not]
    omega
  have hm : out.map (clip lb ub) = out :=
    map_fix _ out (fun a ha => clip_fix lb ub a (hsc a ha))
  rw [hs, hf, hm]
  cases out with
  | nil => exact absurd rfl hne
  | cons x ys =>
    show some (mergeRuns x ys) = some (x :: ys)
    rw [mergeRuns_of_gap ys x hch]

/-!
Facts about the subtraction operators.
-/

/-- Every piece returned by `subtract_intervals` stays inside the original
interval and shares no point with the removal. -/
theorem subtract_intervals_mem (a r p : Interval)
    (hp : p ∈ subtract_intervals a r) :
    a.start ≤ p.start ∧ p.stop ≤ a.stop ∧
      ¬ (max p.start r.start < min p.stop r.stop) := by
  unfold subtract_intervals at hp
  obtain ⟨hp1, hp2⟩ := List.mem_filter.mp hp
  simp only [decide_eq_true_eq] at hp2
  split at hp1
  · rename_i hcond
    simp only [List.mem_singleton] at hp1
    subst hp1
    exact ⟨le_refl _, le_refl _, by omega⟩
  · rename_i hcond
    rcases List.mem_append.mp hp1 with hmem | hmem
    · split at hmem
      · rename_i hc1
        simp only [List.mem_singleton] at hmem
        subst hmem
        simp only [start_mk, stop_mk]
        exact ⟨le_refl _, by omega, by omega⟩
      · simp at hmem
    · split at hmem
      · rename_i hc2
        simp only [List.mem_singleton] at hmem
        subst hmem
        simp only [start_mk, stop_mk]
        exact ⟨by omega, le_refl _, by omega⟩
      · simp at hmem

/-- Explicit form of `subtract_intervals` in the disjoint branch, for a
well-formed original. -/
theorem subtract_intervals_disjoint (a r : Interval)
    (h : r.stop ≤ a.start ∨ r.start ≥ a.stop) (hwf : a.start < a.stop) :
    subtract_intervals a r = [a] := by
  unfold subtract_intervals
  rw [if_pos h]
  simp [List.filter, hwf]

/-- Explicit form of `subtract_intervals` in the overlap branch. -/
theorem subtract_intervals_overlap (a r : Interval)
    (h : ¬ (r.stop ≤ a.start ∨ r.start ≥ a.stop)) :
    subtract_intervals a r =
      ((if r.start > a.start then [Interval.mk a.start (min r.start a.stop)] else []) ++
        (if r.stop < a.stop then [Interval.mk (max r.stop a.start) a.stop] else [])).filter
        (fun p => decide (p.start < p.stop)) := by
  unfold subtract_intervals
  rw [if_neg h]

/-- Completeness of subtraction: every point of the original outside the
removal lies in one of the returned pieces. -/
theorem subtract_intervals_covers (a r : Interval) (t : Int)
    (hta : a.start ≤ t ∧ t < a.stop) (htr : ¬ (r.start ≤ t ∧ t < r.stop)) :
    ∃ p ∈ subtract_intervals a r, p.start ≤ t ∧ t < p.stop := by
  by_cases hdis : r.stop ≤ a.start ∨ r.start ≥ a.stop
  · rw [subtract_intervals_disjoint a r hdis (by omega)]
    exact ⟨a, by simp, hta.1, hta.2⟩
  · rw [subtract_intervals_overlap a r hdis]
    by_cases hleft : t < r.start
    · refine ⟨Interval.mk a.start (min r.start a.stop), ?_, by simp; omega, by simp; omega⟩
      refine List.mem_filter.mpr ⟨?_, by simp; omega⟩
      refine List.mem_append.mpr (Or.inl ?_)
      rw [if_pos (by omega)]
      simp
    · refine ⟨Interval.mk (max r.stop a.start) a.stop, ?_, by simp; omega, by simp; omega⟩
      refine List.mem_filter.mpr ⟨?_, by simp; omega⟩
      refine List.mem_append.mpr (Or.inr ?_)
      rw [if_pos (by omega)]
      simp

/-- One interval folded through a list of removals: pieces only shrink. -/
theorem subtract_many_aux_mem :
    ∀ (rs temp : List Interval) (p : Interval), p ∈ subtract_many_aux temp rs →
      ∃ q ∈ temp, q.start ≤ p.start ∧ p.stop ≤ q.stop
  | [], _, p, hp => ⟨p, hp, le_refl _, le_refl _⟩
  | r :: rs, temp, p, hp => by
    simp only [subtract_many_aux] at hp
    split at hp
    · simp at hp
    · obtain ⟨q1, hq1, hb1, hb2⟩ := subtract_many_aux_mem rs _ p hp
      obtain ⟨q, hq, hq1mem⟩ := List.mem_flatMap.mp hq1
      obtain ⟨hc1, hc2, _⟩ := subtract_intervals_mem q r q1 hq1mem
      exact ⟨q, hq, le_trans hc1 hb1, le_trans hb2 hc2⟩

/-- One interval folded through a list of removals: no returned piece shares
a point with any of the removals. -/
theorem subtract_many_aux_no_overlap :
    ∀ (rs temp : List Interval) (p : Interval), p ∈ subtract_many_aux temp rs →
      ∀ r ∈ rs, ¬ (max p.start r.start < min p.stop r.stop)
  | [], _, _, _, r, hr => absurd hr (List.not_mem_nil r)
  | r0 :: rs, temp, p, hp, r, hr => by
    simp only [subtract_many_aux] at hp
    split at hp
    · simp at hp
    · rcases List.mem_cons.mp hr with rfl | hr2
      · obtain ⟨q1, hq1, hb1, hb2⟩ := subtract_many_aux_mem rs _ p hp
        obtain ⟨q, _, hq1mem⟩ := List.mem_flatMap.mp hq1
        obtain ⟨_, _, hno⟩ := subtract_intervals_mem q r q1 hq1mem
        omega
      · exact subtract_many_aux_no_overlap rs _ p hp r hr2

/-- No interval returned by `subtract_many_intervals` shares a point with
any interval of the removal set. -/
theorem subtract_many_no_overlap (available not_available : List Interval)
    (p : Interval) (hp : p ∈ subtract_many_intervals available not_available) :
    ∀ r ∈ not_available, ¬ (max p.start r.start < min p.stop r.stop) := by
  obtain ⟨i, _, hmem⟩ := List.mem_flatMap.mp hp
  exact subtract_many_aux_no_overlap not_available [i] p hmem

theorem noneOverlapB_eq_true (res unavail : List Interval)
    (h : ∀ p ∈ res, ∀ r ∈ unavail, ¬ (max p.start r.start < min p.stop r.stop)) :
    noneOverlapB res unavail = true := by
  unfold noneOverlapB overlapB
  rw [List.all_eq_true]
  intro p hp
  rw [List.all_eq_true]
  intro r hr
  have hno := h p hp r hr
  simp only [Bool.not_eq_true', decide_eq_false_iff_not]
  exact hno

/-!
Claim theorems.
-/

/-- C2 counterexample: `sort_and_normalize` on the empty list (which is
trivially empty after the drop step) does not return the empty list; it
raises an uncaught `IndexError` at `clean_intervals[0]`, modelled `none`. -/
theorem claim_normalize_empty_faults :
    sort_and_normalize [] 0 86400 = none ∧
    sort_and_normalize [] 0 86400 ≠ some [] := by
  exact ⟨rfl, by decide⟩

/-- C2 amended: whenever at least one input interval survives the drop step
(its stop is at or above the lower bound), `sort_and_normalize` returns a
value instead of faulting; in the program the synthetic end-of-day marker
always plays that role. -/
theorem claim_normalize_nonempty_ok (l : List Interval) (lb ub : Int)
    (h : ∃ i ∈ l, lb ≤ i.stop) :
    (sort_and_normalize l lb ub).isSome = true := by
  obtain ⟨i, hi, hstop⟩ := h
  have hmem : clip lb ub i ∈
      ((stableSort lexLe l).filter fun x => !decide (x.stop < lb)).map (clip lb ub) := by
    refine List.mem_map_of_mem _ (List.mem_filter.mpr ⟨(mem_stableSort lexLe l i).mpr hi, ?_⟩)
    simp only [Bool.not_eq_true', decide_eq_false_iff_not]
    omega
  simp only [sort_and_normalize]
  revert hmem
  cases ((stableSort lexLe l).filter fun x => !decide (x.stop < lb)).map (clip lb ub) with
  | nil => intro hmem; exact absurd hmem (List.not_mem_nil _)
  | cons x ys => intro _; rfl

/-- Witness for the C2 amended theorem at a concrete input. -/
theorem claim_normalize_nonempty_ok_witness :
    (sort_and_normalize [Interval.mk 0 5] 0 86400).isSome = true :=
  claim_normalize_nonempty_ok [Interval.mk 0 5] 0 86400 (by decide)

/-- C3: how `build_intervals` actually treats a window with an endpoint that
matches no known format.  When exactly one endpoint fails to parse, the
Python 2 comparison `y < x` between a datetime and `None` raises `TypeError`
and the whole category aborts; when both endpoints fail, an
`Interval(None, None)` is appended instead of the pair being skipped.  Only
a window that does not split into exactly two tokens is skipped, and a
normally parsed pair gets the midnight-crossing day shift.  This contradicts
the claim that an unparseable pair is skipped and never aborts the category
or contributes a sentinel interval. -/
theorem claim_unparseable_window_behaviour :
    build_intervals_category [[Tok.unparseable, Tok.parsed 600]] = .error () ∧
    build_intervals_category [[Tok.parsed 540, Tok.unparseable]] = .error () ∧
    build_intervals_category [[Tok.unparseable, Tok.unparseable]] =
      .ok [PInterval.mk none none] ∧
    build_intervals_category [[Tok.parsed 540]] = .ok [] ∧
    build_intervals_category [[Tok.parsed 85500, Tok.parsed 1800]] =
      .ok [PInterval.mk (some 85500) (some 88200)] :=
  ⟨rfl, rfl, rfl, rfl, rfl⟩

/-- C7: no interval returned by `subtract_many_intervals` overlaps any
interval of the removal set, for merged inputs as the claim assumes; in
particular the conducive result of `merge_subtract_intervals` never overlaps
any interval of the merged unfavorable group. -/
theorem claim_subtract_many_no_overlap :
    (∀ available not_available : List Interval,
        mergedB available = true → mergedB not_available = true →
        noneOverlapB (subtract_many_intervals available not_available)
          not_available = true) ∧
    (∀ free amritKaal abhijit yamaganda gulika rahu dur varjyam : List Interval,
        noneOverlapB
          (merge_subtract_intervals free amritKaal abhijit yamaganda gulika rahu dur varjyam)
          (merge_intervals (rahu ++ dur ++ varjyam)) = true) := by
  constructor
  · intro available not_available _ _
    exact noneOverlapB_eq_true _ _
      (fun p hp => subtract_many_no_overlap available not_available p hp)
  · intro free amritKaal abhijit yamaganda gulika rahu dur varjyam
    refine noneOverlapB_eq_true _ _ ?_
    intro p hp
    unfold merge_subtract_intervals at hp
    exact subtract_many_no_overlap _ _ p hp

/-- Witness for the C7 theorem at concrete merged inputs. -/
theorem claim_subtract_many_no_overlap_witness :
    noneOverlapB (subtract_many_intervals [Interval.mk 0 100] [Interval.mk 10 20])
      [Interval.mk 10 20] = true :=
  claim_subtract_many_no_overlap.1 [Interval.mk 0 100] [Interval.mk 10 20]
    (by decide) (by decide)

/-- C9: on every non-faulting run, the output of `sort_and_normalize` is
sorted ascending under the `Interval` ordering, every consecutive pair
satisfies `stop <= start`, and feeding the output back with the same bounds
reproduces it exactly (idempotence). -/
theorem claim_normalize_sorted_idem (l : List Interval) (lb ub : Int)
    (out : List Interval) (h : sort_and_normalize l lb ub = some out) :
    sortedB out = true ∧ gapB out = true ∧
    sort_and_normalize out lb ub = some out := by
  obtain ⟨_, hpw, hch, _⟩ := sort_and_normalize_some l lb ub out h
  refine ⟨?_, ?_, sort_and_normalize_idem l lb ub out h⟩
  · exact chainB_of_chain lexLe out hpw.chain'
  · refine chainB_of_chain _ out (hch.imp ?_)
    intro a b hab
    simpa using hab

/-- Witness for the C9 theorem at a concrete input. -/
theorem claim_normalize_sorted_idem_witness :
    sortedB [Interval.mk 1 10] = true ∧ gapB [Interval.mk 1 10] = true ∧
    sort_and_normalize [Interval.mk 1 10] 0 1440 = some [Interval.mk 1 10] :=
  claim_normalize_sorted_idem [Interval.mk 5 10, Interval.mk 1 6] 0 1440
    [Interval.mk 1 10] (by decide)

/-- C10: `merge_intervals` on the empty list returns the empty list through
its explicit guard, and the conducivity computation on a day with every
category empty is well defined and empty. -/
theorem claim_merge_empty_ok :
    merge_intervals [] = [] ∧
    merge_subtract_intervals [] [] [] [] [] [] [] [] = [] :=
  ⟨rfl, rfl⟩

/-- C4: on two touching in-scope intervals the two overlap rules differ
exactly as claimed: the normalizer's strict rule keeps them as two separate
entries while `merge_intervals`' non-strict rule fuses them into one. -/
theorem claim_touching_normalize_mergeAll (a b : Interval) (lb ub : Int)
    (hav : a.start ≤ a.stop) (hbv : b.start ≤ b.stop) (htouch : a.stop = b.start)
    (hlb : lb ≤ a.start) (hub : b.stop ≤ ub) :
    sort_and_normalize [a, b] lb ub = some [a, b] ∧
    merge_intervals [a, b] = [Interval.mk a.start b.stop] := by
  constructor
  · have hsort : stableSort lexLe [a, b] = [a, b] := by
      refine stableSort_of_pairwise lexLe [a, b] ?_
      refine List.pairwise_cons.mpr ⟨?_, by simp⟩
      intro z hz
      simp only [List.mem_singleton] at hz
      subst hz
      rw [lexLe_iff]
      omega
    have hfilter : ([a, b].filter fun i => !decide (i.stop < lb)) = [a, b] := by
      refine List.filter_eq_self.mpr ?_
      intro x hx
      simp only [Bool.not_eq_true', decide_eq_false_iff_not]
      rcases List.mem_cons.mp hx with rfl | hx2
      · omega
      · simp only [List.mem_singleton] at hx2
        subst hx2
        omega
    have hca : clip lb ub a = a := clip_fix lb ub a ⟨hlb, by omega, fun _ => by omega⟩
    have hcb : clip lb ub b = b := clip_fix lb ub b ⟨by omega, by omega, fun _ => by omega⟩
    have hmr : mergeRuns a [b] = [a, b] := by
      refine mergeRuns_of_gap [b] a ?_
      exact List.chain'_cons.mpr ⟨by omega, by simp⟩
    simp only [sort_and_normalize, hsort, hfilter, List.map_cons, List.map_nil, hca, hcb]
    show some (mergeRuns a [b]) = some [a, b]
    rw [hmr]
  · have hsort : stableSort startLe [a, b] = [a, b] := by
      refine stableSort_of_pairwise startLe [a, b] ?_
      refine List.pairwise_cons.mpr ⟨?_, by simp⟩
      intro z hz
      simp only [List.mem_singleton] at hz
      subst hz
      simp only [startLe, decide_eq_true_eq]
      omega
    simp only [merge_intervals, hsort]
    show mergeLoop a [b] = [Interval.mk a.start b.stop]
    simp only [mergeLoop]
    rw [if_pos (by omega : b.start ≤ a.stop)]
    show [Interval.mk a.start (max a.stop b.stop)] = [Interval.mk a.start b.stop]
    rw [(by omega : max a.stop b.stop = b.stop)]

/-- Witness for the C4 theorem on the claim's scenario, in minutes:
`[08:00, 09:00)` and `[09:00, 10:00)` inside the scope `[0, 1440)`. -/
theorem claim_touching_normalize_mergeAll_witness :
    sort_and_normalize [Interval.mk 480 540, Interval.mk 540 600] 0 1440 =
      some [Interval.mk 480 540, Interval.mk 540 600] ∧
    merge_intervals [Interval.mk 480 540, Interval.mk 540 600] =
      [Interval.mk 480 600] :=
  claim_touching_normalize_mergeAll (Interval.mk 480 540) (Interval.mk 540 600)
    0 1440 (by decide) (by decide) (by decide) (by decide) (by decide)

/-- C5: `subtract_intervals` computes the exact half-open set difference:
pointwise, its output covers exactly the points of the original not covered
by the removal; structurally it returns the original when the removal is
disjoint (and the original is well formed), and otherwise the left and right
remainders in order with zero- or negative-length pieces discarded; the two
claim scenarios in minutes. -/
theorem claim_subtract_exact_difference :
    (∀ a r : Interval, ∀ t : Int,
        (∃ p ∈ subtract_intervals a r, p.start ≤ t ∧ t < p.stop) ↔
          ((a.start ≤ t ∧ t < a.stop) ∧ ¬ (r.start ≤ t ∧ t < r.stop))) ∧
    (∀ a r : Interval, (r.stop ≤ a.start ∨ r.start ≥ a.stop) → a.start < a.stop →
        subtract_intervals a r = [a]) ∧
    (∀ a r : Interval, ¬ (r.stop ≤ a.start ∨ r.start ≥ a.stop) →
        subtract_intervals a r =
          ((if r.start > a.start then [Interval.mk a.start (min r.start a.stop)] else []) ++
            (if r.stop < a.stop then [Interval.mk (max r.stop a.start) a.stop] else [])).filter
            (fun p => decide (p.start < p.stop))) ∧
    (∀ a r : Interval, (subtract_intervals a r).length ≤ 2) ∧
    subtract_intervals (Interval.mk 540 600) (Interval.mk 480 660) = [] ∧
    subtract_intervals (Interval.mk 540 1020) (Interval.mk 720 780) =
      [Interval.mk 540 720, Interval.mk 780 1020] := by
  refine ⟨?_, subtract_intervals_disjoint, subtract_intervals_overlap, ?_,
    by decide, by decide⟩
  case refine_2 =>
    intro a r
    unfold subtract_intervals
    refine le_trans (List.length_filter_le _ _) ?_
    split_ifs <;> simp
  intro a r t
  constructor
  · rintro ⟨p, hp, hts, htt⟩
    obtain ⟨hb1, hb2, hno⟩ := subtract_intervals_mem a r p hp
    exact ⟨⟨by omega, by omega⟩, by omega⟩
  · rintro ⟨hta, htr⟩
    exact subtract_intervals_covers a r t hta htr

/-- Witness for the C5 theorem: the disjoint branch at a concrete input. -/
theorem claim_subtract_exact_difference_witness :
    subtract_intervals (Interval.mk 100 200) (Interval.mk 300 400) =
      [Interval.mk 100 200] :=
  claim_subtract_exact_difference.2.1 (Interval.mk 100 200) (Interval.mk 300 400)
    (by decide) (by decide)

/-- C6 counterexample: for the valid interval `[0, 10)` and the removal
value `(start 8, stop 2)` (an interval value with `stop < start`, which the
claim does not exclude), `subtract_intervals` returns the two pieces
`[0, 8)` and `[2, 10)`, which overlap each other, so the returned pieces are
not pairwise disjoint. -/
theorem claim_subtract_coverage_counterexample :
    (Interval.mk 0 10).start ≤ (Interval.mk 0 10).stop ∧
    subtract_intervals (Interval.mk 0 10) (Interval.mk 8 2) =
      [Interval.mk 0 8, Interval.mk 2 10] ∧
    overlapB (Interval.mk 0 8) (Interval.mk 2 10) = true :=
  ⟨by decide, rfl, by decide⟩

/-- C6 amended: for a valid original and a valid removal, every returned
piece lies inside the original, the pieces are pairwise disjoint, and the
pieces together with the part of the removal inside the original reconstruct
the original exactly. -/
theorem claim_subtract_coverage_law (a r : Interval)
    (ha : a.start ≤ a.stop) (hr : r.start ≤ r.stop) :
    withinB a (subtract_intervals a r) = true ∧
    gapB (subtract_intervals a r) = true ∧
    (∀ t : Int,
      ((∃ p ∈ subtract_intervals a r, p.start ≤ t ∧ t < p.stop) ∨
        ((r.start ≤ t ∧ t < r.stop) ∧ (a.start ≤ t ∧ t < a.stop))) ↔
      (a.start ≤ t ∧ t < a.stop)) := by
  refine ⟨?_, ?_, ?_⟩
  · unfold withinB
    rw [List.all_eq_true]
    intro p hp
    obtain ⟨h1, h2, _⟩ := subtract_intervals_mem a r p hp
    simp only [Bool.and_eq_true, decide_eq_true_eq]
    exact ⟨h1, h2⟩
  · by_cases hdis : r.stop ≤ a.start ∨ r.start ≥ a.stop
    · by_cases hwf : a.start < a.stop
      · rw [subtract_intervals_disjoint a r hdis hwf]
        rfl
      · unfold subtract_intervals
        rw [if_pos hdis]
        simp [List.filter, hwf, gapB, chainB]
    · have gap2 : ∀ u v : Interval, u.stop ≤ v.start → gapB [u, v] = true := by
        intro u v h
        simp [gapB, chainB, h]
      rw [subtract_intervals_overlap a r hdis]
      by_cases hc1 : r.start > a.start <;> by_cases hc2 : r.stop < a.stop
      · rw [if_pos hc1, if_pos hc2]
        simp only [List.cons_append, List.nil_append, List.filter, start_mk, stop_mk]
        split
        · split
          · exact gap2 _ _ (show min r.start a.stop ≤ max r.stop a.start by omega)
          · rfl
        · split
          · rfl
          · rfl
      · rw [if_pos hc1, if_neg hc2]
        simp only [List.nil_append, List.append_nil, List.filter, start_mk, stop_mk]
        split
        · rfl
        · rfl
      · rw [if_neg hc1, if_pos hc2]
        simp only [List.nil_append, List.filter, start_mk, stop_mk]
        split
        · rfl
        · rfl
      · rw [if_neg hc1, if_neg hc2]
        rfl
  · intro t
    constructor
    · rintro (⟨p, hp, hts, htt⟩ | ⟨htr, hta⟩)
      · obtain ⟨h1, h2, _⟩ := subtract_intervals_mem a r p hp
        exact ⟨by omega, by omega⟩
      · exact hta
    · intro hta
      by_cases htr : r.start ≤ t ∧ t < r.stop
      · exact Or.inr ⟨htr, hta⟩
      · exact Or.inl (subtract_intervals_covers a r t hta htr)

/-- Witness for the C6 amended theorem on the strictly-inside scenario. -/
theorem claim_subtract_coverage_law_witness :
    withinB (Interval.mk 540 1020)
      (subtract_intervals (Interval.mk 540 1020) (Interval.mk 720 780)) = true ∧
    gapB (subtract_intervals (Interval.mk 540 1020) (Interval.mk 720 780)) = true := by
  have h := claim_subtract_coverage_law (Interval.mk 540 1020) (Interval.mk 720 780)
    (by decide) (by decide)
  exact ⟨h.1, h.2.1⟩

/-- C1 counterexample: on the claim's own scenario (seconds since
2024-01-01T00:00, Rahu `[09:00, 10:30)`, Dur Muhurat `[12:00, 12:48)`),
`find_free_time` returns `[00:00, 09:00)`, `[10:30, 12:00)` and
`[12:48, 23:59:59)` — the last free interval stops at the synthetic
marker's start, one second before the 24:00 day boundary, not at the
boundary itself. -/
theorem claim_free_time_boundary_counterexample :
    find_free_time [Interval.mk 32400 37800] [] [] [Interval.mk 43200 46080] [] 0 =
      some [Interval.mk 0 32400, Interval.mk 37800 43200, Interval.mk 46080 86399] ∧
    find_free_time [Interval.mk 32400 37800] [] [] [Interval.mk 43200 46080] [] 0 ≠
      some [Interval.mk 0 32400, Interval.mk 37800 43200, Interval.mk 46080 86400] := by
  constructor
  · rfl
  · decide

/-- C1 amended: with all five busy categories empty, `find_free_time`
returns exactly one free interval `[given, given + 24h - 1s)`, reaching the
synthetic boundary marker's start rather than the day boundary itself; on
the claim's scenario the result is `[00:00, 09:00)`, `[10:30, 12:00)`,
`[12:48, 23:59:59)`. -/
theorem claim_free_time_boundary_amended :
    (∀ given : Int, find_free_time [] [] [] [] [] given =
        some [Interval.mk given (given + 86399)]) ∧
    find_free_time [Interval.mk 32400 37800] [] [] [Interval.mk 43200 46080] [] 0 =
      some [Interval.mk 0 32400, Interval.mk 37800 43200, Interval.mk 46080 86399] := by
  constructor
  · intro given
    have hfe : ([Interval.mk (given + 86400 - 1) (given + 86400)].filter
        fun i => !decide (i.stop < given)) =
        [Interval.mk (given + 86400 - 1) (given + 86400)] := by
      refine List.filter_eq_self.mpr ?_
      intro x hx
      simp only [List.mem_singleton] at hx
      subst hx
      simp only [stop_mk, Bool.not_eq_true', decide_eq_false_iff_not]
      omega
    have hcl : clip given (given + 86400) (Interval.mk (given + 86400 - 1) (given + 86400)) =
        Interval.mk (given + 86400 - 1) (given + 86400) := by
      refine clip_fix _ _ _ ⟨?_, ?_, ?_⟩ <;> simp only [start_mk, stop_mk] <;> omega
    have hsn : sort_and_normalize [Interval.mk (given + 86400 - 1) (given + 86400)]
        given (given + 86400) =
        some [Interval.mk (given + 86400 - 1) (given + 86400)] := by
      simp only [sort_and_normalize]
      rw [show stableSort lexLe [Interval.mk (given + 86400 - 1) (given + 86400)] =
          [Interval.mk (given + 86400 - 1) (given + 86400)] from rfl]
      rw [hfe]
      simp only [List.map_cons, List.map_nil, hcl]
      rfl
    have hcond : ((Interval.mk (given + 86400 - 1) (given + 86400)).start - given).emod
        86400 > 0 := by
      simp only [start_mk]
      rw [(by omega : given + 86400 - 1 - given = 86399)]
      decide
    have hwalk : freeWalk (given + 86400) given
        [Interval.mk (given + 86400 - 1) (given + 86400)] =
        [Interval.mk given (given + 86399)] := by
      unfold freeWalk
      rw [if_neg (by omega), if_pos hcond]
      simp only [start_mk, stop_mk]
      rw [(by omega : given + 86400 - 1 = given + 86399)]
      rfl
    show (sort_and_normalize [Interval.mk (given + 86400 - 1) (given + 86400)]
        given (given + 86400)).map
      (fun m => stableSort lexLe (freeWalk (given + 86400) given m)) =
      some [Interval.mk given (given + 86399)]
    rw [hsn]
    show some (stableSort lexLe (freeWalk (given + 86400) given
        [Interval.mk (given + 86400 - 1) (given + 86400)])) =
      some [Interval.mk given (given + 86399)]
    rw [hwalk]
    rfl
  · rfl

end GoodTime
